import Mathlib

/-!
Shallow embedding of the "random handout" simulation from
`random_handout_problem.ipynb` and verification of its specification.

The notebook's core is the generator

  def simulate():
      prev_step = [INITWEALTH]*NUMPLAYERS
      while True:
          next_step = [max(0, player_wealth - 1) for player_wealth in prev_step]
          for player, wealth in enumerate(prev_step):
              if wealth:
                  next_step[random.randint(0, NUMPLAYERS - 1)] += 1
          yield next_step
          prev_step = next_step

Wealths are Python ints, embedded as `Int`.  The random source
(`random.randint(0, NUMPLAYERS - 1)`) is embedded as a stream
`rng : Nat → Nat` of draws together with an explicit cursor `t`: the
loop consumes `rng t`, `rng (t+1)`, ... in order, one draw per agent
whose previous wealth is nonzero.  `random.randint(0, N-1)` always
returns an index in `[0, N)`; where a theorem needs that fact it takes
the hypothesis `∀ n, rng n < N`.
-/

namespace RandomHandout

/-- The notebook constant `INITWEALTH = 50`. -/
def INITWEALTH : Int := 50

/-- The notebook constant `NUMPLAYERS = 100`. -/
def NUMPLAYERS : Nat := 100

/-- The notebook's initial list construction `[INITWEALTH]*NUMPLAYERS`,
generalized over the two constants it uses: `N` copies of `W`. -/
def initDist (N : Nat) (W : Int) : List Int :=
  List.replicate N W

/-- The decrement phase
`next_step = [max(0, player_wealth - 1) for player_wealth in prev_step]`. -/
def decrementAll (prev : List Int) : List Int :=
  prev.map (fun w => max 0 (w - 1))

/-- `next_step[r] += 1`.  An out-of-range index leaves the list unchanged;
the notebook's random source always returns an in-range index. -/
def incrAt : List Int → Nat → List Int
  | [], _ => []
  | w :: ws, 0 => (w + 1) :: ws
  | w :: ws, r + 1 => w :: incrAt ws r

/-- The giving loop
`for player, wealth in enumerate(prev_step): if wealth: next_step[...] += 1`:
walk the previous wealths in increasing index order; each nonzero wealth
(`if wealth:` is Python truthiness, i.e. `wealth ≠ 0`) consumes one draw
from the stream and increments that index of `next`.  Returns the updated
list together with the advanced cursor into the draw stream. -/
def giveLoop : List Int → List Int → (Nat → Nat) → Nat → List Int × Nat
  | [], next, _, t => (next, t)
  | w :: ws, next, rng, t =>
    if w ≠ 0 then giveLoop ws (incrAt next (rng t)) rng (t + 1)
    else giveLoop ws next rng t

/-- One tick of the simulation: decrement everyone (floored at 0), then run
the giving loop over the pre-decrement wealths. -/
def step (prev : List Int) (rng : Nat → Nat) (t : Nat) : List Int × Nat :=
  giveLoop prev (decrementAll prev) rng t

/-- Iterate `step` `k` times from distribution `d` with draw cursor `t`. -/
def run (d : List Int) (rng : Nat → Nat) (t : Nat) : Nat → List Int × Nat
  | 0 => (d, t)
  | k + 1 => run (step d rng t).1 rng (step d rng t).2 k

/-- The value of the notebook generator's `k`-th `yield` (0-based): the
generator yields `next_step`, i.e. the state after `k + 1` ticks from the
initial `[INITWEALTH]*NUMPLAYERS`; the initial state itself is never
yielded. -/
def simulate (rng : Nat → Nat) (k : Nat) : List Int :=
  (run (initDist NUMPLAYERS INITWEALTH) rng 0 (k + 1)).1

/-- `step` as a self-map on (distribution, cursor) pairs, for stating the
stream semantics via `Function.iterate`. -/
def stepPair (rng : Nat → Nat) (s : List Int × Nat) : List Int × Nat :=
  step s.1 rng s.2

/-- The spec's wording of the giving loop, for the refinement claim:
eligibility to give is `prev[i] > 0` (the code tests `prev[i] ≠ 0`). -/
def specGiveLoop : List Int → List Int → (Nat → Nat) → Nat → List Int × Nat
  | [], next, _, t => (next, t)
  | w :: ws, next, rng, t =>
    if 0 < w then specGiveLoop ws (incrAt next (rng t)) rng (t + 1)
    else specGiveLoop ws next rng t

/-- The spec's wording of one tick: `next[i] = max(0, prev[i] - 1)` for
every `i`, then for every `i` in increasing order with `prev[i] > 0` draw
an index and increment it. -/
def specStep (prev : List Int) (rng : Nat → Nat) (t : Nat) : List Int × Nat :=
  specGiveLoop prev (prev.map (fun w => max 0 (w - 1))) rng t

/-- The spec's single error kind. -/
inductive SimError where
  | invalidConfiguration
deriving DecidableEq

/-- Modelled from the spec: the notebook has no parameterised constructor
and no validation (it hardcodes `[INITWEALTH]*NUMPLAYERS`); §4.1/§7 of
the spec require a constructor that fails with `InvalidConfiguration`
exactly when `N < 1` and otherwise yields `N` copies of `W`. -/
def initDistE (N : Nat) (W : Int) : Except SimError (List Int) :=
  if N < 1 then Except.error SimError.invalidConfiguration
  else Except.ok (List.replicate N W)

/-! ### Length lemmas -/

theorem length_incrAt (l : List Int) (r : Nat) : (incrAt l r).length = l.length := by
  induction l generalizing r with
  | nil => rfl
  | cons w ws ih =>
    cases r with
    | zero => rfl
    | succ r => simp [incrAt, ih]

theorem length_decrementAll (prev : List Int) :
    (decrementAll prev).length = prev.length := by
  simp [decrementAll]

theorem length_giveLoop (ws next : List Int) (rng : Nat → Nat) (t : Nat) :
    ((giveLoop ws next rng t).1).length = next.length := by
  induction ws generalizing next t with
  | nil => rfl
  | cons w ws ih =>
    by_cases hw : w = 0
    · simp [giveLoop, hw, ih]
    · simp [giveLoop, hw, ih, length_incrAt]

theorem length_step (prev : List Int) (rng : Nat → Nat) (t : Nat) :
    ((step prev rng t).1).length = prev.length := by
  rw [step, length_giveLoop, length_decrementAll]

theorem length_run (d : List Int) (rng : Nat → Nat) (t k : Nat) :
    ((run d rng t k).1).length = d.length := by
  induction k generalizing d t with
  | zero => rfl
  | succ k ih => rw [run, ih, length_step]

/-! ### Sum lemmas -/

theorem sum_incrAt (l : List Int) (r : Nat) (hr : r < l.length) :
    (incrAt l r).sum = l.sum + 1 := by
  induction l generalizing r with
  | nil => simp at hr
  | cons w ws ih =>
    cases r with
    | zero => simp [incrAt]; ring
    | succ r =>
      have hr' : r < ws.length := by simpa using hr
      simp [incrAt, ih r hr']
      ring

/-- The number of agents that give in one tick: entries the loop's
`if wealth:` test accepts, i.e. nonzero previous wealths. -/
def countGivers : List Int → Nat
  | [] => 0
  | w :: ws => (if w ≠ 0 then 1 else 0) + countGivers ws

theorem countGivers_eq_countP_pos (l : List Int) (h : ∀ w ∈ l, (0:Int) ≤ w) :
    countGivers l = l.countP (fun w => decide (0 < w)) := by
  induction l with
  | nil => rfl
  | cons w ws ih =>
    have hw : (0:Int) ≤ w := h w (List.mem_cons_self w ws)
    have hws : ∀ v ∈ ws, (0:Int) ≤ v := fun v hv => h v (List.mem_cons_of_mem w hv)
    by_cases h0 : w = 0
    · subst h0
      rw [countGivers, List.countP_cons, ih hws]
      norm_num
    · have h1 : (0:Int) < w := lt_of_le_of_ne hw (Ne.symm h0)
      rw [countGivers, List.countP_cons, ih hws]
      simp [h0, h1]
      omega

theorem sum_decrementAll (prev : List Int) (h : ∀ w ∈ prev, (0:Int) ≤ w) :
    (decrementAll prev).sum = prev.sum - (countGivers prev : Int) := by
  induction prev with
  | nil => simp [decrementAll, countGivers]
  | cons w ws ih =>
    have hw : (0:Int) ≤ w := h w (List.mem_cons_self w ws)
    have hws : ∀ v ∈ ws, (0:Int) ≤ v := fun v hv => h v (List.mem_cons_of_mem w hv)
    have hsum : (decrementAll ws).sum = ws.sum - (countGivers ws : Int) := ih hws
    by_cases h0 : w = 0
    · subst h0
      have hmax : max (0:Int) (0 - 1) = 0 := by omega
      rw [decrementAll, List.map_cons, List.sum_cons, countGivers]
      rw [decrementAll] at hsum
      rw [hsum, hmax]
      simp
    · have hmax : max (0:Int) (w - 1) = w - 1 := by omega
      rw [decrementAll, List.map_cons, List.sum_cons, countGivers]
      rw [decrementAll] at hsum
      rw [hsum, hmax, if_pos h0, List.sum_cons]
      push_cast
      ring

theorem sum_giveLoop (ws : List Int) (next : List Int) (rng : Nat → Nat) (t : Nat)
    (hrng : ∀ n, rng n < next.length) :
    ((giveLoop ws next rng t).1).sum = next.sum + (countGivers ws : Int) := by
  induction ws generalizing next t with
  | nil => simp [giveLoop, countGivers]
  | cons w ws ih =>
    by_cases h0 : w = 0
    · rw [giveLoop, if_neg (by simpa using h0), countGivers, if_neg (by simpa using h0),
        ih next t hrng]
      simp
    · have hlen : ∀ n, rng n < (incrAt next (rng t)).length := by
        intro n; rw [length_incrAt]; exact hrng n
      rw [giveLoop, if_pos h0, countGivers, if_pos h0,
        ih (incrAt next (rng t)) (t + 1) hlen, sum_incrAt next (rng t) (hrng t)]
      push_cast
      ring

theorem sum_step (prev : List Int) (rng : Nat → Nat) (t : Nat)
    (h : ∀ w ∈ prev, (0:Int) ≤ w) (hrng : ∀ n, rng n < prev.length) :
    ((step prev rng t).1).sum = prev.sum := by
  have hlen : ∀ n, rng n < (decrementAll prev).length := by
    intro n; rw [length_decrementAll]; exact hrng n
  rw [step, sum_giveLoop prev (decrementAll prev) rng t hlen, sum_decrementAll prev h]
  ring

/-! ### Non-negativity lemmas -/

theorem nonneg_decrementAll (prev : List Int) :
    ∀ w ∈ decrementAll prev, (0:Int) ≤ w := by
  intro w hw
  simp only [decrementAll, List.mem_map] at hw
  obtain ⟨v, _, rfl⟩ := hw
  exact le_max_left 0 (v - 1)

theorem nonneg_incrAt (l : List Int) (r : Nat) (h : ∀ w ∈ l, (0:Int) ≤ w) :
    ∀ w ∈ incrAt l r, (0:Int) ≤ w := by
  induction l generalizing r with
  | nil => intro w hw; simp [incrAt] at hw
  | cons v vs ih =>
    have hv : (0:Int) ≤ v := h v (List.mem_cons_self v vs)
    have hvs : ∀ w ∈ vs, (0:Int) ≤ w := fun w hw => h w (List.mem_cons_of_mem v hw)
    cases r with
    | zero =>
      intro w hw
      rcases List.mem_cons.mp hw with rfl | hw
      · omega
      · exact hvs w hw
    | succ r =>
      intro w hw
      rcases List.mem_cons.mp hw with rfl | hw
      · exact hv
      · exact ih r hvs w hw

theorem nonneg_giveLoop (ws next : List Int) (rng : Nat → Nat) (t : Nat)
    (h : ∀ w ∈ next, (0:Int) ≤ w) :
    ∀ w ∈ (giveLoop ws next rng t).1, (0:Int) ≤ w := by
  induction ws generalizing next t with
  | nil => simpa [giveLoop] using h
  | cons w ws ih =>
    by_cases h0 : w = 0
    · simpa [giveLoop, h0] using ih next t h
    · simpa [giveLoop, h0] using
        ih (incrAt next (rng t)) (t + 1) (nonneg_incrAt next (rng t) h)

theorem nonneg_step (prev : List Int) (rng : Nat → Nat) (t : Nat) :
    ∀ w ∈ (step prev rng t).1, (0:Int) ≤ w :=
  nonneg_giveLoop prev (decrementAll prev) rng t (nonneg_decrementAll prev)

theorem nonneg_run (d : List Int) (rng : Nat → Nat) (t k : Nat)
    (h : ∀ w ∈ d, (0:Int) ≤ w) :
    ∀ w ∈ (run d rng t k).1, (0:Int) ≤ w := by
  induction k generalizing d t with
  | zero => simpa [run] using h
  | succ k ih =>
    rw [run]
    exact ih (step d rng t).1 (step d rng t).2 (nonneg_step d rng t)

theorem sum_run (d : List Int) (rng : Nat → Nat) (t k : Nat)
    (h : ∀ w ∈ d, (0:Int) ≤ w) (hrng : ∀ n, rng n < d.length) :
    ((run d rng t k).1).sum = d.sum := by
  induction k generalizing d t with
  | zero => rfl
  | succ k ih =>
    rw [run]
    have hlen : ∀ n, rng n < ((step d rng t).1).length := by
      intro n; rw [length_step]; exact hrng n
    rw [ih (step d rng t).1 (step d rng t).2 (nonneg_step d rng t) hlen]
    exact sum_step d rng t h hrng

/-! ### Draw-stream cursor lemmas -/

theorem snd_giveLoop (ws next : List Int) (rng : Nat → Nat) (t : Nat) :
    (giveLoop ws next rng t).2 = t + countGivers ws := by
  induction ws generalizing next t with
  | nil => simp [giveLoop, countGivers]
  | cons w ws ih =>
    by_cases h0 : w = 0
    · rw [giveLoop, if_neg (by simpa using h0), countGivers, if_neg (by simpa using h0),
        ih next t]
      omega
    · rw [giveLoop, if_pos h0, countGivers, if_pos h0, ih (incrAt next (rng t)) (t + 1)]
      omega

/-! ### Pointwise lower bounds -/

theorem getD_incrAt_ge (l : List Int) (r i : Nat) :
    l.getD i 0 ≤ (incrAt l r).getD i 0 := by
  induction l generalizing r i with
  | nil => simp [incrAt]
  | cons w ws ih =>
    cases r with
    | zero =>
      cases i with
      | zero => simp [incrAt]
      | succ i => simp [incrAt]
    | succ r =>
      cases i with
      | zero => simp [incrAt]
      | succ i => simpa [incrAt] using ih r i

theorem getD_giveLoop_ge (ws next : List Int) (rng : Nat → Nat) (t i : Nat) :
    next.getD i 0 ≤ ((giveLoop ws next rng t).1).getD i 0 := by
  induction ws generalizing next t with
  | nil => simp [giveLoop]
  | cons w ws ih =>
    by_cases h0 : w = 0
    · rw [giveLoop, if_neg (by simpa using h0)]
      exact ih next t
    · rw [giveLoop, if_pos h0]
      exact le_trans (getD_incrAt_ge next (rng t) i) (ih (incrAt next (rng t)) (t + 1))

theorem getD_decrementAll_ge (prev : List Int) (i : Nat) :
    prev.getD i 0 - 1 ≤ (decrementAll prev).getD i 0 := by
  induction prev generalizing i with
  | nil => simp [decrementAll]
  | cons w ws ih =>
    cases i with
    | zero =>
      simp only [decrementAll, List.map_cons, List.getD_cons_zero]
      omega
    | succ i => simpa [decrementAll] using ih i

/-! ### The code's loop agrees with the spec's wording on valid states -/

theorem giveLoop_eq_specGiveLoop (ws next : List Int) (rng : Nat → Nat) (t : Nat)
    (h : ∀ w ∈ ws, (0:Int) ≤ w) :
    giveLoop ws next rng t = specGiveLoop ws next rng t := by
  induction ws generalizing next t with
  | nil => rfl
  | cons w ws ih =>
    have hw : (0:Int) ≤ w := h w (List.mem_cons_self w ws)
    have hws : ∀ v ∈ ws, (0:Int) ≤ v := fun v hv => h v (List.mem_cons_of_mem w hv)
    by_cases h0 : w = 0
    · subst h0
      rw [giveLoop, specGiveLoop, if_neg (by simp), if_neg (by simp), ih next t hws]
    · have h1 : (0:Int) < w := lt_of_le_of_ne hw (Ne.symm h0)
      rw [giveLoop, specGiveLoop, if_pos h0, if_pos h1,
        ih (incrAt next (rng t)) (t + 1) hws]

/-! ### Iteration -/

theorem run_eq_iterate (d : List Int) (rng : Nat → Nat) (t k : Nat) :
    run d rng t k = (stepPair rng)^[k] (d, t) := by
  induction k generalizing d t with
  | zero => rfl
  | succ k ih =>
    rw [run, Function.iterate_succ_apply]
    exact ih (step d rng t).1 (step d rng t).2

/-! ### The initial distribution -/

theorem length_initDist (N : Nat) (W : Int) : (initDist N W).length = N := by
  simp [initDist]

theorem eq_of_mem_initDist (N : Nat) (W : Int) : ∀ w ∈ initDist N W, w = W := by
  intro w hw
  exact List.eq_of_mem_replicate hw

theorem sum_initDist (N : Nat) (W : Int) : (initDist N W).sum = (N : Int) * W := by
  induction N with
  | zero => simp [initDist]
  | succ n ih =>
    rw [initDist, List.replicate_succ, List.sum_cons]
    rw [initDist] at ih
    rw [ih]
    push_cast
    ring

/-! ### The single-agent steady state -/

theorem run_single_five (rng : Nat → Nat) (hrng : ∀ n, rng n < 1) (t k : Nat) :
    (run [(5:Int)] rng t k).1 = [5] := by
  induction k generalizing t with
  | zero => rfl
  | succ k ih =>
    have h0 : rng t = 0 := Nat.lt_one_iff.mp (hrng t)
    have hstep : (step [(5:Int)] rng t).1 = [5] := by
      norm_num [step, decrementAll, giveLoop, incrAt, h0]
    rw [run, hstep]
    exact ih (step [(5:Int)] rng t).2

/-! ### Determinism: the update is a function of the state and the draws -/

theorem giveLoop_congr (ws next : List Int) (rng1 rng2 : Nat → Nat) (t : Nat)
    (h : ∀ n, rng1 n = rng2 n) :
    giveLoop ws next rng1 t = giveLoop ws next rng2 t := by
  induction ws generalizing next t with
  | nil => rfl
  | cons w ws ih =>
    by_cases h0 : w = 0
    · rw [giveLoop, giveLoop, if_neg (by simpa using h0), if_neg (by simpa using h0),
        ih next t]
    · rw [giveLoop, giveLoop, if_pos h0, if_pos h0, h t,
        ih (incrAt next (rng2 t)) (t + 1)]

theorem step_congr (prev : List Int) (rng1 rng2 : Nat → Nat) (t : Nat)
    (h : ∀ n, rng1 n = rng2 n) :
    step prev rng1 t = step prev rng2 t :=
  giveLoop_congr prev (decrementAll prev) rng1 rng2 t h

theorem run_congr (d : List Int) (rng1 rng2 : Nat → Nat) (t k : Nat)
    (h : ∀ n, rng1 n = rng2 n) :
    run d rng1 t k = run d rng2 t k := by
  induction k generalizing d t with
  | zero => rfl
  | succ k ih =>
    rw [run, run, step_congr d rng1 rng2 t h]
    exact ih (step d rng2 t).1 (step d rng2 t).2

/-! ## The claims -/

/-- C1: Conservation of total wealth: the sum of the distribution produced
by one step equals the sum of the previous distribution (for any
non-negative distribution and in-range draws); hence iterating any number
of steps preserves the sum, and in particular every element of the
notebook simulation has the same sum as the initial distribution. -/
theorem claim_conservation :
    (∀ prev rng t, (∀ w ∈ prev, (0:Int) ≤ w) → (∀ n, rng n < prev.length) →
        ((step prev rng t).1).sum = prev.sum)
    ∧ (∀ d rng t k, (∀ w ∈ d, (0:Int) ≤ w) → (∀ n, rng n < d.length) →
        ((run d rng t k).1).sum = d.sum)
    ∧ (∀ rng k, (∀ n, rng n < NUMPLAYERS) →
        (simulate rng k).sum = (initDist NUMPLAYERS INITWEALTH).sum) := by
  refine ⟨sum_step, sum_run, ?_⟩
  intro rng k hrng
  have hnn : ∀ w ∈ initDist NUMPLAYERS INITWEALTH, (0:Int) ≤ w := by
    intro w hw
    rw [eq_of_mem_initDist _ _ w hw]
    norm_num [INITWEALTH]
  have hlen : ∀ n, rng n < (initDist NUMPLAYERS INITWEALTH).length := by
    intro n
    rw [length_initDist]
    exact hrng n
  exact sum_run _ rng 0 (k + 1) hnn hlen

theorem claim_conservation_witness :
    ((step [(2:Int), 0, 1] (fun _ => 0) 0).1).sum = ([(2:Int), 0, 1]).sum
    ∧ (simulate (fun _ => 0) 2).sum = (initDist NUMPLAYERS INITWEALTH).sum :=
  ⟨claim_conservation.1 [2, 0, 1] (fun _ => 0) 0 (by decide) (fun _ => Nat.succ_pos 2),
   claim_conservation.2.2 (fun _ => 0) 2 (fun _ => Nat.succ_pos 99)⟩

/-- C2: Non-negativity: one step yields only non-negative wealths whatever
the input, and every distribution reachable by iterating from a
non-negative distribution is non-negative everywhere. -/
theorem claim_nonneg :
    (∀ prev rng t, ∀ w ∈ (step prev rng t).1, (0:Int) ≤ w)
    ∧ (∀ d rng t k, (∀ w ∈ d, (0:Int) ≤ w) → ∀ w ∈ (run d rng t k).1, (0:Int) ≤ w) :=
  ⟨nonneg_step, nonneg_run⟩

theorem claim_nonneg_witness :
    (0:Int) ≤ ((step [(-3:Int), 2] (fun _ => 0) 0).1).getD 0 0
    ∧ (0:Int) ≤ ((run [(1:Int), 0] (fun _ => 0) 0 2).1).getD 1 0 :=
  ⟨claim_nonneg.1 [(-3:Int), 2] (fun _ => 0) 0 _ (by decide),
   claim_nonneg.2 [(1:Int), 0] (fun _ => 0) 0 2 (by decide) _ (by decide)⟩

/-- C3: The step function computes exactly the specified algorithm: on a
non-negative previous distribution it agrees with the spec's wording
(`next[i] = max(0, prev[i] - 1)` for every `i`, then each `i` in
increasing order with `prev[i] > 0` draws an index and increments it,
self-giving included), producing the same distribution and consuming the
same draws. -/
theorem claim_step_matches_spec (prev : List Int) (rng : Nat → Nat) (t : Nat)
    (h : ∀ w ∈ prev, (0:Int) ≤ w) :
    step prev rng t = specStep prev rng t :=
  giveLoop_eq_specGiveLoop prev (decrementAll prev) rng t h

theorem claim_step_matches_spec_witness :
    step [(2:Int), 0, 1] (fun _ => 1) 0 = specStep [(2:Int), 0, 1] (fun _ => 1) 0 :=
  claim_step_matches_spec [2, 0, 1] (fun _ => 1) 0 (by decide)

/-- C4: Initialization yields the all-`W` distribution: `N` agents, every
element equal to `W`, sum `N × W` (the code builds `NUMPLAYERS` copies of
`INITWEALTH`). -/
theorem claim_initDist_spec (N : Nat) (W : Int) :
    (initDist N W).length = N ∧ (∀ w ∈ initDist N W, w = W)
    ∧ (initDist N W).sum = (N : Int) * W :=
  ⟨length_initDist N W, eq_of_mem_initDist N W, sum_initDist N W⟩

theorem claim_initDist_spec_witness :
    (initDist NUMPLAYERS INITWEALTH).length = NUMPLAYERS
    ∧ (initDist NUMPLAYERS INITWEALTH).sum = (NUMPLAYERS : Int) * INITWEALTH
    ∧ (initDist 3 (7:Int)).getD 1 0 = 7 :=
  ⟨(claim_initDist_spec NUMPLAYERS INITWEALTH).1,
   (claim_initDist_spec NUMPLAYERS INITWEALTH).2.2,
   (claim_initDist_spec 3 7).2.1 ((initDist 3 (7:Int)).getD 1 0) (by decide)⟩

/-- C5: Stream semantics: the `k`-th element of the stream (0-based) is
`k + 1` applications of the step function to the initial distribution, so
the first element is the result of the first advance and the initial
distribution itself is not emitted as an element. -/
theorem claim_stream_semantics (rng : Nat → Nat) (k : Nat) :
    simulate rng k = ((stepPair rng)^[k + 1] (initDist NUMPLAYERS INITWEALTH, 0)).1
    ∧ simulate rng 0 = (step (initDist NUMPLAYERS INITWEALTH) rng 0).1 := by
  constructor
  · rw [simulate, run_eq_iterate]
  · rw [simulate, run, run]

/-- C6: Error handling: initialization fails with `InvalidConfiguration`
exactly when `N < 1`, any error it produces is `InvalidConfiguration`
(the only kind), and from any successfully constructed state every
advance succeeds, producing a valid (same-length, non-negative)
distribution. -/
theorem claim_error_handling :
    (∀ N W, initDistE N W = Except.error SimError.invalidConfiguration ↔ N < 1)
    ∧ (∀ N W e, initDistE N W = Except.error e → e = SimError.invalidConfiguration)
    ∧ (∀ N W d, initDistE N W = Except.ok d →
        ∀ rng t, ((step d rng t).1).length = d.length
          ∧ ∀ w ∈ (step d rng t).1, (0:Int) ≤ w) := by
  refine ⟨?_, ?_, ?_⟩
  · intro N W
    constructor
    · intro h
      by_contra hN
      simp [initDistE, hN] at h
    · intro h
      simp [initDistE, h]
  · intro N W e _
    cases e
    rfl
  · intro N W d _ rng t
    exact ⟨length_step d rng t, nonneg_step d rng t⟩

theorem claim_error_handling_witness :
    initDistE 0 7 = Except.error SimError.invalidConfiguration
    ∧ ((step [(3:Int), 3] (fun _ => 0) 0).1).length = ([(3:Int), 3]).length :=
  ⟨(claim_error_handling.1 0 7).mpr (by decide),
   (claim_error_handling.2.2 2 3 [3, 3] rfl (fun _ => 0) 0).1⟩

/-- C7: Determinism under a fixed seed: the step/run functions take the
random source as an explicit parameter, and two runs from the same
distribution with pointwise-equal random sources produce identical
results for any number of steps; likewise for the notebook simulation. -/
theorem claim_determinism :
    (∀ d t k rng1 rng2, (∀ n, rng1 n = rng2 n) → run d rng1 t k = run d rng2 t k)
    ∧ (∀ k rng1 rng2, (∀ n, rng1 n = rng2 n) → simulate rng1 k = simulate rng2 k) := by
  constructor
  · intro d t k rng1 rng2 h
    exact run_congr d rng1 rng2 t k h
  · intro k rng1 rng2 h
    rw [simulate, simulate,
      run_congr (initDist NUMPLAYERS INITWEALTH) rng1 rng2 0 (k + 1) h]

theorem claim_determinism_witness :
    run [(1:Int), 2] (fun _ => 0) 0 3 = run [(1:Int), 2] (fun n => 0 * n) 0 3
    ∧ simulate (fun _ => 0) 1 = simulate (fun n => 0 * n) 1 :=
  ⟨claim_determinism.1 [1, 2] 0 3 (fun _ => 0) (fun n => 0 * n)
      (fun n => (Nat.zero_mul n).symm),
   claim_determinism.2 1 (fun _ => 0) (fun n => 0 * n)
      (fun n => (Nat.zero_mul n).symm)⟩

/-- C8: Randomness consumption: one step on a non-negative distribution
advances the draw cursor by exactly the number of agents with positive
previous wealth; agents at zero consume no draw. -/
theorem claim_randomness_consumption (prev : List Int) (rng : Nat → Nat) (t : Nat)
    (h : ∀ w ∈ prev, (0:Int) ≤ w) :
    (step prev rng t).2 = t + prev.countP (fun w => decide (0 < w)) := by
  rw [step, snd_giveLoop, countGivers_eq_countP_pos prev h]

theorem claim_randomness_consumption_witness :
    (step [(2:Int), 0, 1] (fun _ => 0) 5).2
      = 5 + ([(2:Int), 0, 1]).countP (fun w => decide (0 < w)) :=
  claim_randomness_consumption [2, 0, 1] (fun _ => 0) 5 (by decide)

/-- C9: Single-agent steady state: with `N = 1` and `W = 5` every draw is
forced to index 0, the agent gives to itself, and every element of the
produced sequence equals `[5]`. -/
theorem claim_single_agent (rng : Nat → Nat) (t k : Nat) (hrng : ∀ n, rng n < 1) :
    (run (initDist 1 5) rng t k).1 = [(5:Int)] :=
  run_single_five rng hrng t k

theorem claim_single_agent_witness :
    (run (initDist 1 5) (fun _ => 0) 0 4).1 = [(5:Int)] :=
  claim_single_agent (fun _ => 0) 0 4 (fun _ => Nat.succ_pos 0)

/-- C10: Bounded per-tick loss: for every previous distribution, random
source, cursor and index, the wealth at that index after one step is at
least the previous wealth minus one — no agent loses more than one unit
in a tick, whatever the draws. -/
theorem claim_bounded_loss (prev : List Int) (rng : Nat → Nat) (t i : Nat) :
    prev.getD i 0 - 1 ≤ ((step prev rng t).1).getD i 0 :=
  le_trans (getD_decrementAll_ge prev i)
    (getD_giveLoop_ge prev (decrementAll prev) rng t i)

end RandomHandout
